import Mathlib

/-!
# Verification of the `tinnitus` noise-pipeline program

Shallow embedding of the repository's two source files (`src/main.rs`,
`src/utils.rs`) and proofs about the claims of its specification.

The embedding covers:
* the `logos`-generated lexer for the mini-language (`Token`, the skip
  pattern `[ \t\n\f]+`, the literal tokens `sin`/`white`/`brown`/`pink`/`|`
  and the two numeric regexes with their `parse_int`/`parse_float`
  callbacks);
* the parser `to_ast` building a `Vec<Vec<Sound>>` pipeline;
* the compilation of a pipeline into a signal net (`combine`, the `+`
  parallel-sum and `|` stack operators of the external `fundsp` crate,
  modelled denotationally from the spec's description of the primitives);
* the output interleaver `write_data`;
* the volume-control update rules, which exist only in the spec.

Numeric samples and frequencies are modelled as `ℚ` (the `f64` values of
the program are exact on every input any claim touches); machine-integer
overflow of the `u64` parse in `parse_int` is modelled explicitly.
-/

namespace Tinnitus

/-! ## Lexer (from `src/main.rs`, `enum Token` with `logos` attributes) -/

/-- The lexer's error type (`enum Error` in `main.rs`): `Error::Default` is
produced by `logos` for an unmatched character, `Error::Err(_)` wraps a
failed token callback (the only fallible callback is `parse_int`, whose
`u64` parse fails on overflow). -/
inductive LexError
  | Default
  | Err
deriving DecidableEq, Repr

/-- Tokens of the mini-language, from `enum Token` in `main.rs`.  The
`Number` payload is the exact value of the literal (the program stores an
`f64`; every literal any claim mentions is exactly representable). -/
inductive Token
  | Sin
  | White
  | Brown
  | Pink
  | Pipe
  | Number (q : ℚ)
deriving DecidableEq, Repr

/-- The skip pattern `[ \t\n\f]+` of the `logos` derive: space, tab,
line feed, form feed. -/
def isWs (c : Char) : Bool :=
  c = '\x20' || c = '\t' || c = '\n' || c = '\x0c'

/-- Value of a digit string, most significant digit first: the value
`slice.parse::<u64>()` computes when it does not overflow. -/
def natOfDigits (ds : List Char) : Nat :=
  ds.foldl (fun acc c => acc * 10 + (c.toNat - 48)) 0

/-- One maximal-munch scan of a numeric literal, starting at a digit.
Mirrors the two `logos` regexes: `[0-9]+\.[0-9]*` (callback `parse_float`,
which cannot fail on a string matching that regex) wins over `[0-9]+`
(callback `parse_int`, which fails when the value overflows `u64`, i.e. is
`≥ 2^64`).  Returns the token value and the unconsumed input. -/
def scanNumber (l : List Char) : Except LexError (ℚ × List Char) :=
  match l.dropWhile Char.isDigit with
  | '.' :: r =>
      .ok ((natOfDigits (l.takeWhile Char.isDigit) : ℚ) +
             (natOfDigits (r.takeWhile Char.isDigit) : ℚ) /
               (10 : ℚ) ^ (r.takeWhile Char.isDigit).length,
           r.dropWhile Char.isDigit)
  | _ =>
      if natOfDigits (l.takeWhile Char.isDigit) < 2 ^ 64 then
        .ok ((natOfDigits (l.takeWhile Char.isDigit) : ℚ),
          l.dropWhile Char.isDigit)
      else .error .Err

/-- The maximal-munch lexer loop.  `fuel` only makes the recursion
structural: every step consumes at least one character, so `fuel ≥`
remaining length never reaches the exhaustion branch when started with
`fuel = input.length` (see `tokenize`).  The keyword alternatives have
pairwise distinct first characters and none is a prefix of another, and no
keyword shares a first character with a digit, `|` or the skip class, so
first-character dispatch is exactly `logos`' longest-match behaviour. -/
def lexGo : Nat → List Char → Except LexError (List Token)
  | _, [] => .ok []
  | 0, _ :: _ => .error .Default
  | fuel + 1, c :: cs =>
    if isWs c then lexGo fuel cs
    else if c.isDigit then
      match scanNumber (c :: cs) with
      | .error e => .error e
      | .ok (q, rest) => Except.map (Token.Number q :: ·) (lexGo fuel rest)
    else
      match c, cs with
      | '|', cs => Except.map (Token.Pipe :: ·) (lexGo fuel cs)
      | 's', 'i' :: 'n' :: cs => Except.map (Token.Sin :: ·) (lexGo fuel cs)
      | 'w', 'h' :: 'i' :: 't' :: 'e' :: cs =>
          Except.map (Token.White :: ·) (lexGo fuel cs)
      | 'b', 'r' :: 'o' :: 'w' :: 'n' :: cs =>
          Except.map (Token.Brown :: ·) (lexGo fuel cs)
      | 'p', 'i' :: 'n' :: 'k' :: cs =>
          Except.map (Token.Pink :: ·) (lexGo fuel cs)
      | _, _ => .error .Default

/-- Whole-input tokenization: `Token::lexer(&input).try_collect()` in
`main` — the whole input is tokenized before parsing, and the first error
aborts. -/
def tokenize (l : List Char) : Except LexError (List Token) :=
  lexGo l.length l

/-! ## Parser (`to_ast` in `src/main.rs`) -/

/-- `enum Sound` from `main.rs`.  `None` exists in the Rust enum but is
never produced by `to_ast`. -/
inductive Sound
  | Sin (f : ℚ)
  | White
  | Brown
  | Pink
  | None
deriving DecidableEq, Repr

/-- The two `bail!` sites of `to_ast`, named as the spec's taxonomy names
them: `MissingArgument` is `bail!("need hz for sin")`, `UnexpectedToken`
is `bail!("unused number")`. -/
inductive ParseError
  | MissingArgument
  | UnexpectedToken
deriving DecidableEq, Repr

/-- `sounds.last_mut().unwrap().push(s)`: append to the final stage.  The
`[]` case is the `unwrap` panic; it is unreachable because `to_ast` seeds
the accumulator with one empty stage and never shrinks it. -/
def pushLast (sounds : List (List Sound)) (s : Sound) : List (List Sound) :=
  match sounds with
  | [] => []
  | [l] => [l ++ [s]]
  | l :: ls => l :: pushLast ls s

/-- The loop of `to_ast`: one-token lookahead (`peekable.peek()`), the
accumulator `sounds` seeded by the caller. -/
def toAstGo : List Token → List (List Sound) →
    Except ParseError (List (List Sound))
  | [], sounds => .ok sounds
  | Token.Sin :: Token.Number q :: rest, sounds =>
      toAstGo rest (pushLast sounds (Sound.Sin q))
  | [Token.Sin], _ => .error .MissingArgument
  | Token.Sin :: _ :: _, _ => .error .MissingArgument
  | Token.Pipe :: rest, sounds => toAstGo rest (sounds ++ [[]])
  | Token.White :: rest, sounds => toAstGo rest (pushLast sounds Sound.White)
  | Token.Brown :: rest, sounds => toAstGo rest (pushLast sounds Sound.Brown)
  | Token.Pink :: rest, sounds => toAstGo rest (pushLast sounds Sound.Pink)
  | Token.Number _ :: _, _ => .error .UnexpectedToken

/-- `to_ast` from `main.rs`: `let mut sounds = vec![Vec::new()]` then the
token loop. -/
def to_ast (tokens : List Token) : Except ParseError (List (List Sound)) :=
  toAstGo tokens [[]]

instance {ε α : Type} [DecidableEq ε] [DecidableEq α] :
    DecidableEq (Except ε α) := fun a b =>
  match a, b with
  | .ok x, .ok y =>
      if h : x = y then .isTrue (by rw [h]) else .isFalse (by simp [h])
  | .ok _, .error _ => .isFalse (by simp)
  | .error _, .ok _ => .isFalse (by simp)
  | .error e, .error e' =>
      if h : e = e' then .isTrue (by rw [h]) else .isFalse (by simp [h])

/-! ## Signal nets

The program compiles each stage with `combine` (parallel sum `a + b` over
`fundsp::Net64`) and joins the stages with the stack operator `a | b`,
then reads one stereo pair per frame via `AudioUnit64::get_stereo`.
`fundsp` is an external crate, so its combinators are modelled
denotationally from the spec (§4.3–§4.4): a net is its per-frame list of
output-channel samples.  Every source node is an input-free generator;
its state is a function of the frame index and, for the noise nodes, of a
stream `rnd` of consumed random-source values.  The sine oscillator's
waveform is abstracted into a function `sinFn` of the phase in cycles
(`sin` and `π` are transcendental; no claim depends on the waveform's
values). -/

/-- A compiled signal net: the samples of each output channel at frame
`n`.  (`fundsp` `Net64`; `Net64::default()` is the net with no outputs.) -/
structure Net where
  out : Nat → List ℚ

/-- Modelled from the spec: `sine_hz(f)` — "phase-accumulating oscillator;
phase advances by `2π·frequency/sample_rate` each frame, output =
`sin(phase)`"; `sinFn` is the waveform applied to the phase in cycles. -/
def sineNet (sinFn : ℚ → ℚ) (sampleRate f : ℚ) : Net :=
  ⟨fun n => [sinFn (f * n / sampleRate)]⟩

/-- Modelled from the spec: `white()` — "independent uniformly-distributed
sample each frame", i.e. the node emits its consumed random-source
stream. -/
def whiteNet (rnd : Nat → ℚ) : Net :=
  ⟨fun n => [rnd n]⟩

/-- Modelled from the spec: `brown()` — "leaky running integral of a white
source".  The leak constant is not fixed by the spec; no claim depends on
it, `99/100` is used here. -/
def brownOut (rnd : Nat → ℚ) : Nat → ℚ
  | 0 => rnd 0
  | n + 1 => (99 / 100) * brownOut rnd n + rnd (n + 1)

/-- The brown-noise node. -/
def brownNet (rnd : Nat → ℚ) : Net :=
  ⟨fun n => [brownOut rnd n]⟩

/-- Modelled from the spec: `pink()` — "white source passed through a
fixed low-order filter bank approximating `1/f`".  The filter
coefficients are not fixed by the spec; no claim depends on them, a
one-pole average is used here. -/
def pinkOut (rnd : Nat → ℚ) : Nat → ℚ
  | 0 => rnd 0
  | n + 1 => (1 / 2) * pinkOut rnd n + (1 / 2) * rnd (n + 1)

/-- The pink-noise node. -/
def pinkNet (rnd : Nat → ℚ) : Net :=
  ⟨fun n => [pinkOut rnd n]⟩

/-- The net with no output channels: `Net64::default()`, produced for
`Sound::None` and for an empty stage. -/
def emptyNet : Net :=
  ⟨fun _ => []⟩

/-- The boxed node built for one `Sound` in `combine`'s `match`. -/
def soundNet (sinFn : ℚ → ℚ) (sampleRate : ℚ) (rnd : Nat → ℚ) :
    Sound → Net
  | Sound.Sin f => sineNet sinFn sampleRate f
  | Sound.White => whiteNet rnd
  | Sound.Brown => brownNet rnd
  | Sound.Pink => pinkNet rnd
  | Sound.None => emptyNet

/-- `fundsp`'s parallel sum `a + b`: instantaneous arithmetic sum of the
children's matching output channels (spec §4.3 `Sum`).  The two operands
always have one output each where the program applies it. -/
def netAdd (a b : Net) : Net :=
  ⟨fun n => List.zipWith (· + ·) (a.out n) (b.out n)⟩

/-- `fundsp`'s stack operator `a | b`: the outputs of `a` followed by the
outputs of `b`, each side keeping its own channels. -/
def netStack (a b : Net) : Net :=
  ⟨fun n => a.out n ++ b.out n⟩

/-- `combine` from `run` in `main.rs`: map each `Sound` of a stage to its
node and fold with `+` (`reduce(|a, b| a + b)`, left fold seeded with the
first element), defaulting to `Net64::default()` for an empty stage.  The
`i`-th node of the stage owns the random stream `rnds i`. -/
def combine (sinFn : ℚ → ℚ) (sampleRate : ℚ) (rnds : Nat → Nat → ℚ)
    (sounds : List Sound) : Net :=
  match (sounds.enum.map fun p => soundNet sinFn sampleRate (rnds p.1) p.2) with
  | [] => emptyNet
  | n :: rest => rest.foldl netAdd n

/-- The pipeline compilation in `run`: `ast.into_iter().map(combine)
.reduce(|a, b| a | b).unwrap()`.  The `[]` case is the `unwrap` panic; it
is unreachable because `to_ast` always returns at least one stage.  The
`i`-th stage's nodes own the random streams `rnds i`. -/
def compilePipeline (sinFn : ℚ → ℚ) (sampleRate : ℚ)
    (rnds : Nat → Nat → Nat → ℚ) (stages : List (List Sound)) : Net :=
  match (stages.enum.map fun p => combine sinFn sampleRate (rnds p.1) p.2) with
  | [] => emptyNet
  | n :: rest => rest.foldl netStack n

/-- `AudioUnit64::get_stereo` on an input-free net, as documented by
`fundsp` and the spec's "produce one stereo sample" operation: the first
two output channels; a single channel is duplicated to both sides, no
channel yields silence. -/
def getStereo (a : Net) (n : Nat) : ℚ × ℚ :=
  match a.out n with
  | [] => (0, 0)
  | [x] => (x, x)
  | x :: y :: _ => (x, y)

/-- The single sample of a one-output net at frame `n` (`0` for a net
with no outputs). -/
def out1 (a : Net) (n : Nat) : ℚ :=
  (a.out n).headI

/-! ## Output interleaving (`write_data`, identical in `src/main.rs` and
`src/utils.rs`) -/

/-- The inner loop of `write_data`: `for (channel, sample) in
frame.iter_mut().enumerate() { if channel & 0b1 == 0 { *sample = left }
else { *sample = right } }` (`channel & 0b1 == 0` is evenness).  Only the
frame's length matters; every slot is overwritten. -/
def writeFrame (frame : List ℚ) (lr : ℚ × ℚ) : List ℚ :=
  frame.enum.map fun p => if p.1 % 2 = 0 then lr.1 else lr.2

/-- The frame loop of `write_data`: `for frame in
output.chunks_mut(channels)`, each chunk filled from the next stereo
sample.  The closure `next_sample` is modelled as the stream `ns` indexed
by the frame counter `i`.  `fuel` only makes the recursion structural;
every step consumes at least one element (see `write_data`). -/
def writeGo : Nat → Nat → List ℚ → Nat → (Nat → ℚ × ℚ) → List ℚ
  | _, _, [], _, _ => []
  | 0, _, _ :: _, _, _ => []
  | fuel + 1, i, l@(_ :: _), channels, ns =>
      writeFrame (l.take channels) (ns i) ++
        writeGo fuel (i + 1) (l.drop channels) channels ns

/-- `write_data` from `utils.rs` / `main.rs`.  `chunks_mut` asserts a
non-zero chunk size, so `channels = 0` panics — modelled as `none`.
Otherwise the buffer's final contents are returned (the initial contents
are irrelevant beyond the length: every slot is assigned). -/
def write_data (output : List ℚ) (channels : Nat) (ns : Nat → ℚ × ℚ) :
    Option (List ℚ) :=
  if channels = 0 then none
  else some (writeGo output.length 0 output channels ns)

/-- The contents `write_data` produces for one full frame of `channels`
slots fed the stereo pair `lr`: even channel index takes the left sample,
odd takes the right. -/
def mkFrame (channels : Nat) (lr : ℚ × ℚ) : List ℚ :=
  (List.range channels).map fun j => if j % 2 = 0 then lr.1 else lr.2

/-- The contents `write_data` produces for `n` full frames starting at
frame counter `i`. -/
def framesOut (i n channels : Nat) (ns : Nat → ℚ × ℚ) : List ℚ :=
  match n with
  | 0 => []
  | n + 1 => mkFrame channels (ns i) ++ framesOut (i + 1) n channels ns

/-! ## Volume control

No volume handling exists under `src/` (the committed variant only parks
on Ctrl-C), so the update rules are modelled from the spec alone. -/

/-- Modelled from the spec: "Volume-up key: `loudness ← min(loudness * 2,
1.0)`" (§4.5). -/
def volumeUp (loudness : ℚ) : ℚ :=
  min (loudness * 2) 1

/-- Modelled from the spec: "Volume-down key: `loudness ← loudness * 0.5`
(no floor)" (§4.5). -/
def volumeDown (loudness : ℚ) : ℚ :=
  loudness * (1 / 2)

/-! ## Vocabulary for the claims about the lexer

The lexeme grammar the spec describes: keywords, the separator, numeric
literals and whitespace.  `ComposedOf` is the spec's "input composed only
of …"; `GoodDecomp` adds the two conditions the implementation actually
imposes (integer literals fit in `u64`; maximal munch does not glue a
numeral to a following digit). -/

/-- One lexeme of the surface language as the spec enumerates them. -/
inductive Lexeme
  | kwSin
  | kwWhite
  | kwBrown
  | kwPink
  | sep
  | intLit (ds : List Char)
  | decLit (ds fs : List Char)
  | wsChar (c : Char)
deriving DecidableEq, Repr

/-- The characters a lexeme is written with. -/
def Lexeme.chars : Lexeme → List Char
  | kwSin => ['s', 'i', 'n']
  | kwWhite => ['w', 'h', 'i', 't', 'e']
  | kwBrown => ['b', 'r', 'o', 'w', 'n']
  | kwPink => ['p', 'i', 'n', 'k']
  | sep => ['|']
  | intLit ds => ds
  | decLit ds fs => ds ++ '.' :: fs
  | wsChar c => [c]

/-- Shape-wellformedness: an integer literal is a non-empty digit string
`[0-9]+`, a decimal literal matches `[0-9]+\.[0-9]*`, a whitespace
character is in the skip class. -/
def Lexeme.WF : Lexeme → Prop
  | intLit ds => ds ≠ [] ∧ ∀ c ∈ ds, c.isDigit = true
  | decLit ds fs =>
      ds ≠ [] ∧ (∀ c ∈ ds, c.isDigit = true) ∧ ∀ c ∈ fs, c.isDigit = true
  | wsChar c => isWs c = true
  | _ => True

/-- Numeric lexemes (the ones maximal munch could extend). -/
def Lexeme.isNum : Lexeme → Bool
  | intLit _ => true
  | decLit _ _ => true
  | _ => false

/-- Whether a lexeme's spelling starts with a digit. -/
def Lexeme.digitStart (l : Lexeme) : Bool :=
  match l.chars with
  | c :: _ => c.isDigit
  | [] => false

/-- The implementation bound: an integer literal must fit in `u64`
(`parse_int` does `slice.parse::<u64>()`). -/
def Lexeme.inRange : Lexeme → Prop
  | intLit ds => natOfDigits ds < 2 ^ 64
  | _ => True

/-- No numeric lexeme is immediately followed by a lexeme starting with a
digit (otherwise maximal munch merges them). -/
def Sep : List Lexeme → Prop
  | [] => True
  | [_] => True
  | a :: b :: rest => (a.isNum = true → b.digitStart = false) ∧ Sep (b :: rest)

/-- The claim's notion: the input is a concatenation of well-formed
lexemes — keywords, `|`, integer or decimal literals, whitespace. -/
def ComposedOf (s : List Char) : Prop :=
  ∃ ls : List Lexeme, (∀ l ∈ ls, l.WF) ∧ s = (ls.map Lexeme.chars).flatten

/-- The decompositions the lexer actually accepts: well-formed lexemes
whose integer literals fit in `u64` and with no numeral glued to a
following digit. -/
def GoodDecomp (s : List Char) : Prop :=
  ∃ ls : List Lexeme, (∀ l ∈ ls, l.WF ∧ l.inRange) ∧ Sep ls ∧
    s = (ls.map Lexeme.chars).flatten

/-! ## Vocabulary for the claims about the parser -/

/-- The token list contains a `Sin` not immediately followed by a
`Number` (including a trailing `Sin`). -/
def badSinL (ts : List Token) : Prop :=
  ∃ pre suf, ts = pre ++ Token.Sin :: suf ∧
    ∀ q suf', suf ≠ Token.Number q :: suf'

/-- The token list contains a `Number` not immediately preceded by a
`Sin`. -/
def badNumL (ts : List Token) : Prop :=
  ∃ pre q suf, ts = pre ++ Token.Number q :: suf ∧
    pre.getLast? ≠ some Token.Sin

/-! ## Parser lemmas -/

/-- Appending tokens that do not start with a `Number` does not disturb
the parse of the first part: the only cross-boundary lookahead is a
trailing `Sin` peeking at a `Number`. -/
theorem toAstGo_append (ts more : List Token) (acc : List (List Sound))
    (h : ∀ q suf, more ≠ Token.Number q :: suf) :
    toAstGo (ts ++ more) acc =
      (toAstGo ts acc).bind fun st => toAstGo more st := by
  induction ts, acc using toAstGo.induct with
  | case1 sounds => simp [toAstGo, Except.bind]
  | case2 q rest sounds ih => simpa [toAstGo] using ih
  | case3 acc =>
      cases more with
      | nil => simp [toAstGo, Except.bind]
      | cons m ms =>
          cases m with
          | Number q => exact absurd rfl (h q ms)
          | Sin => simp [toAstGo, Except.bind]
          | White => simp [toAstGo, Except.bind]
          | Brown => simp [toAstGo, Except.bind]
          | Pink => simp [toAstGo, Except.bind]
          | Pipe => simp [toAstGo, Except.bind]
  | case4 hd tl acc hne =>
      cases hd with
      | Number q => exact absurd rfl (fun h => hne q h)
      | Sin => simp [toAstGo, Except.bind]
      | White => simp [toAstGo, Except.bind]
      | Brown => simp [toAstGo, Except.bind]
      | Pink => simp [toAstGo, Except.bind]
      | Pipe => simp [toAstGo, Except.bind]
  | case5 rest sounds ih => simpa [toAstGo] using ih
  | case6 rest sounds ih => simpa [toAstGo] using ih
  | case7 rest sounds ih => simpa [toAstGo] using ih
  | case8 rest sounds ih => simpa [toAstGo] using ih
  | case9 q tail acc => simp [toAstGo, Except.bind]

/-- Inverting a `badSinL` witness at a cons cell. -/
theorem badSinL_cons_inv {t : Token} {ts : List Token}
    (h : badSinL (t :: ts)) :
    (t = Token.Sin ∧ ∀ q suf', ts ≠ Token.Number q :: suf') ∨ badSinL ts := by
  obtain ⟨pre, suf, heq, hsuf⟩ := h
  cases pre with
  | nil =>
      injection heq with h1 h2
      exact Or.inl ⟨h1, by rw [h2]; exact hsuf⟩
  | cons p ps =>
      injection heq with h1 h2
      exact Or.inr ⟨ps, suf, h2, hsuf⟩

/-- Prepending any token preserves `badSinL`. -/
theorem badSinL_cons (t : Token) {ts : List Token} (h : badSinL ts) :
    badSinL (t :: ts) := by
  obtain ⟨pre, suf, heq, hsuf⟩ := h
  exact ⟨t :: pre, suf, by rw [heq]; rfl, hsuf⟩

/-- A consumed `Sin`/`Number` pair neither creates nor destroys a
dangling `Sin` beyond it. -/
theorem badSinL_of_pair {q : ℚ} {rest : List Token}
    (h : badSinL (Token.Sin :: Token.Number q :: rest)) : badSinL rest := by
  rcases badSinL_cons_inv h with ⟨_, hno⟩ | h2
  · exact absurd rfl (hno q rest)
  · rcases badSinL_cons_inv h2 with ⟨hsin, _⟩ | h3
    · exact absurd hsin (by simp)
    · exact h3

/-- Dropping a non-`Number` head preserves `badNumL`. -/
theorem badNumL_of_cons {t : Token} {ts : List Token}
    (h : badNumL (t :: ts)) (ht : ∀ q, t ≠ Token.Number q) : badNumL ts := by
  obtain ⟨pre, q, suf, heq, hlast⟩ := h
  cases pre with
  | nil =>
      injection heq with h1 _
      exact absurd h1 (ht q)
  | cons p ps =>
      injection heq with h1 h2
      refine ⟨ps, q, suf, h2, ?_⟩
      cases ps with
      | nil => simp
      | cons p' ps' => simpa [List.getLast?_cons_cons] using hlast

/-- Prepending a token other than `Sin` preserves `badNumL`. -/
theorem badNumL_cons (t : Token) {ts : List Token} (ht : t ≠ Token.Sin)
    (h : badNumL ts) : badNumL (t :: ts) := by
  obtain ⟨pre, q, suf, heq, hlast⟩ := h
  refine ⟨t :: pre, q, suf, by rw [heq]; rfl, ?_⟩
  cases pre with
  | nil => simpa using ht
  | cons p ps => simpa [List.getLast?_cons_cons] using hlast

/-- Prepending a consumed `Sin`/`Number` pair preserves `badNumL`. -/
theorem badNumL_cons_pair (q : ℚ) {ts : List Token} (h : badNumL ts) :
    badNumL (Token.Sin :: Token.Number q :: ts) := by
  obtain ⟨pre, q', suf, heq, hlast⟩ := h
  refine ⟨Token.Sin :: Token.Number q :: pre, q', suf, by rw [heq]; rfl, ?_⟩
  cases pre with
  | nil => simp [List.getLast?_cons_cons]
  | cons p ps => simpa [List.getLast?_cons_cons] using hlast

/-- A consumed `Sin`/`Number` pair does not hide a dangling `Number`
beyond it. -/
theorem badNumL_of_pair {q : ℚ} {rest : List Token}
    (h : badNumL (Token.Sin :: Token.Number q :: rest)) : badNumL rest := by
  obtain ⟨pre, q', suf, heq, hlast⟩ := h
  cases pre with
  | nil => simp at heq
  | cons p ps =>
      cases ps with
      | nil =>
          simp only [List.cons_append, List.nil_append, List.cons.injEq] at heq
          exact absurd (by simp [heq.1.symm]) hlast
      | cons p' ps' =>
          simp only [List.cons_append, List.cons.injEq] at heq
          refine ⟨ps', q', suf, heq.2.2, ?_⟩
          cases ps' with
          | nil => simp
          | cons a as => simpa [List.getLast?_cons_cons] using hlast

/-- A dangling `Sin` forces the parse to fail (with one of the two
errors). -/
theorem toAstGo_badSin {ts : List Token} (acc : List (List Sound))
    (h : badSinL ts) : ∃ e, toAstGo ts acc = .error e := by
  induction ts, acc using toAstGo.induct with
  | case1 sounds =>
      obtain ⟨pre, suf, heq, -⟩ := h
      exact absurd heq (by simp)
  | case2 q rest sounds ih => simpa [toAstGo] using ih (badSinL_of_pair h)
  | case3 acc => exact ⟨.MissingArgument, rfl⟩
  | case4 hd tl acc hne =>
      cases hd with
      | Number q => exact absurd rfl (fun hh => hne q hh)
      | Sin => exact ⟨.MissingArgument, rfl⟩
      | White => exact ⟨.MissingArgument, rfl⟩
      | Brown => exact ⟨.MissingArgument, rfl⟩
      | Pink => exact ⟨.MissingArgument, rfl⟩
      | Pipe => exact ⟨.MissingArgument, rfl⟩
  | case5 rest sounds ih =>
      rcases badSinL_cons_inv h with ⟨hh, -⟩ | h2
      · exact absurd hh (by simp)
      · simpa [toAstGo] using ih h2
  | case6 rest sounds ih =>
      rcases badSinL_cons_inv h with ⟨hh, -⟩ | h2
      · exact absurd hh (by simp)
      · simpa [toAstGo] using ih h2
  | case7 rest sounds ih =>
      rcases badSinL_cons_inv h with ⟨hh, -⟩ | h2
      · exact absurd hh (by simp)
      · simpa [toAstGo] using ih h2
  | case8 rest sounds ih =>
      rcases badSinL_cons_inv h with ⟨hh, -⟩ | h2
      · exact absurd hh (by simp)
      · simpa [toAstGo] using ih h2
  | case9 q tail acc => exact ⟨.UnexpectedToken, rfl⟩

/-- With no dangling `Number` anywhere, a dangling `Sin` is reached
before anything else can fail, so the error is `MissingArgument`. -/
theorem toAstGo_badSin_missing {ts : List Token} (acc : List (List Sound))
    (h : badSinL ts) (hn : ¬ badNumL ts) :
    toAstGo ts acc = .error .MissingArgument := by
  induction ts, acc using toAstGo.induct with
  | case1 sounds =>
      obtain ⟨pre, suf, heq, -⟩ := h
      exact absurd heq (by simp)
  | case2 q rest sounds ih =>
      simpa [toAstGo] using
        ih (badSinL_of_pair h) (fun hb => hn (badNumL_cons_pair q hb))
  | case3 acc => rfl
  | case4 hd tl acc hne =>
      cases hd with
      | Number q => exact absurd rfl (fun hh => hne q hh)
      | Sin => rfl
      | White => rfl
      | Brown => rfl
      | Pink => rfl
      | Pipe => rfl
  | case5 rest sounds ih =>
      rcases badSinL_cons_inv h with ⟨hh, -⟩ | h2
      · exact absurd hh (by simp)
      · simpa [toAstGo] using
          ih h2 (fun hb => hn (badNumL_cons _ (by simp) hb))
  | case6 rest sounds ih =>
      rcases badSinL_cons_inv h with ⟨hh, -⟩ | h2
      · exact absurd hh (by simp)
      · simpa [toAstGo] using
          ih h2 (fun hb => hn (badNumL_cons _ (by simp) hb))
  | case7 rest sounds ih =>
      rcases badSinL_cons_inv h with ⟨hh, -⟩ | h2
      · exact absurd hh (by simp)
      · simpa [toAstGo] using
          ih h2 (fun hb => hn (badNumL_cons _ (by simp) hb))
  | case8 rest sounds ih =>
      rcases badSinL_cons_inv h with ⟨hh, -⟩ | h2
      · exact absurd hh (by simp)
      · simpa [toAstGo] using
          ih h2 (fun hb => hn (badNumL_cons _ (by simp) hb))
  | case9 q tail acc =>
      exact absurd ⟨[], q, tail, rfl, by simp⟩ hn

/-- A dangling `Number` forces the parse to fail (with one of the two
errors). -/
theorem toAstGo_badNum {ts : List Token} (acc : List (List Sound))
    (h : badNumL ts) : ∃ e, toAstGo ts acc = .error e := by
  induction ts, acc using toAstGo.induct with
  | case1 sounds =>
      obtain ⟨pre, q, suf, heq, -⟩ := h
      exact absurd heq (by simp)
  | case2 q rest sounds ih => simpa [toAstGo] using ih (badNumL_of_pair h)
  | case3 acc => exact ⟨.MissingArgument, rfl⟩
  | case4 hd tl acc hne =>
      cases hd with
      | Number q => exact absurd rfl (fun hh => hne q hh)
      | Sin => exact ⟨.MissingArgument, rfl⟩
      | White => exact ⟨.MissingArgument, rfl⟩
      | Brown => exact ⟨.MissingArgument, rfl⟩
      | Pink => exact ⟨.MissingArgument, rfl⟩
      | Pipe => exact ⟨.MissingArgument, rfl⟩
  | case5 rest sounds ih =>
      simpa [toAstGo] using ih (badNumL_of_cons h (by simp))
  | case6 rest sounds ih =>
      simpa [toAstGo] using ih (badNumL_of_cons h (by simp))
  | case7 rest sounds ih =>
      simpa [toAstGo] using ih (badNumL_of_cons h (by simp))
  | case8 rest sounds ih =>
      simpa [toAstGo] using ih (badNumL_of_cons h (by simp))
  | case9 q tail acc => exact ⟨.UnexpectedToken, rfl⟩

/-- With no dangling `Sin` anywhere, a dangling `Number` is reached
before anything else can fail, so the error is `UnexpectedToken`. -/
theorem toAstGo_badNum_unexpected {ts : List Token} (acc : List (List Sound))
    (h : badNumL ts) (hs : ¬ badSinL ts) :
    toAstGo ts acc = .error .UnexpectedToken := by
  induction ts, acc using toAstGo.induct with
  | case1 sounds =>
      obtain ⟨pre, q, suf, heq, -⟩ := h
      exact absurd heq (by simp)
  | case2 q rest sounds ih =>
      simpa [toAstGo] using
        ih (badNumL_of_pair h)
          (fun hb => hs (badSinL_cons _ (badSinL_cons _ hb)))
  | case3 acc => exact absurd ⟨[], [], rfl, by simp⟩ hs
  | case4 hd tl acc hne =>
      refine absurd ⟨[], hd :: tl, rfl, ?_⟩ hs
      intro q suf' hcon
      injection hcon with h1 _
      exact hne q h1
  | case5 rest sounds ih =>
      simpa [toAstGo] using
        ih (badNumL_of_cons h (by simp)) (fun hb => hs (badSinL_cons _ hb))
  | case6 rest sounds ih =>
      simpa [toAstGo] using
        ih (badNumL_of_cons h (by simp)) (fun hb => hs (badSinL_cons _ hb))
  | case7 rest sounds ih =>
      simpa [toAstGo] using
        ih (badNumL_of_cons h (by simp)) (fun hb => hs (badSinL_cons _ hb))
  | case8 rest sounds ih =>
      simpa [toAstGo] using
        ih (badNumL_of_cons h (by simp)) (fun hb => hs (badSinL_cons _ hb))
  | case9 q tail acc => rfl

/-! ## The claims -/

/-- Claim C1: tokenizing and then parsing `"sin 440 | white"` succeeds
and yields the pipeline `[[Sine(440.0)], [White]]` — a first stage with
exactly one sine source at frequency 440 and a second stage with exactly
one white source. -/
theorem claim_C1 :
    tokenize "sin 440 | white".toList
      = .ok [Token.Sin, Token.Number 440, Token.Pipe, Token.White] ∧
    to_ast [Token.Sin, Token.Number 440, Token.Pipe, Token.White]
      = .ok [[Sound.Sin 440], [Sound.White]] :=
  ⟨rfl, rfl⟩

/-- Claim C2, counterexample: the token sequence `[Sin, Pipe]` ends in a
`Pipe` with nothing after it, yet parsing does not succeed — it fails
with `MissingArgument`, refuting "for every token sequence ending in a
Pipe token …, parsing succeeds". -/
theorem claim_C2_cex :
    [Token.Sin, Token.Pipe].getLast? = some Token.Pipe ∧
    to_ast [Token.Sin, Token.Pipe] = .error .MissingArgument :=
  ⟨rfl, rfl⟩

/-- Claim C2, amended: for every token sequence ending in a `Pipe` on
which parsing succeeds, the resulting pipeline's final stage is empty,
and compiling an empty stage produces a node whose stereo output is
constantly `(0, 0)` on every frame. -/
theorem claim_C2 (ts : List Token) (st : List (List Sound))
    (h : to_ast (ts ++ [Token.Pipe]) = .ok st) :
    st.getLast? = some [] ∧
    ∀ sinFn sampleRate rnds n,
      getStereo (combine sinFn sampleRate rnds []) n = (0, 0) := by
  refine ⟨?_, fun sinFn sampleRate rnds n => rfl⟩
  rw [to_ast, toAstGo_append ts [Token.Pipe] [[]] (by simp)] at h
  cases hts : toAstGo ts [[]] with
  | error e => rw [hts] at h; simp [Except.bind] at h
  | ok st' =>
      rw [hts] at h
      simp only [Except.bind, toAstGo, Except.ok.injEq] at h
      rw [← h]
      exact List.getLast?_concat st'

/-- Witness for C2 at the parse of `"white |"`. -/
theorem claim_C2_witness :
    to_ast ([Token.White] ++ [Token.Pipe]) = .ok [[Sound.White], []] ∧
    ([[Sound.White], []] : List (List Sound)).getLast? = some [] ∧
    ∀ sinFn sampleRate rnds n,
      getStereo (combine sinFn sampleRate rnds []) n = (0, 0) :=
  ⟨rfl, claim_C2 [Token.White] [[Sound.White], []] rfl⟩

/-- Claim C4, counterexample: `[Number 100, Sin]` contains a `Sin` not
immediately followed by a `Number`, but parsing fails with
`UnexpectedToken` (the dangling `Number` is hit first), not
`MissingArgument`. -/
theorem claim_C4_cex :
    badSinL [Token.Number 100, Token.Sin] ∧
    to_ast [Token.Number 100, Token.Sin] = .error .UnexpectedToken ∧
    ParseError.UnexpectedToken ≠ ParseError.MissingArgument :=
  ⟨⟨[Token.Number 100], [], rfl, by simp⟩, rfl, by decide⟩

/-- Claim C4, amended: a token sequence containing a `Sin` not
immediately followed by a `Number` always fails to parse; the error is
`MissingArgument` whenever the sequence contains no dangling `Number`
(a `Number` not immediately preceded by `Sin`) — a dangling `Number`
encountered first yields `UnexpectedToken` instead.  When `Sin` is
immediately followed by `Number f`, the pair is consumed as a single
`Sine(f)` appended to the current (final) stage. -/
theorem claim_C4 (ts ts' : List Token) (st : List (List Sound)) (f : ℚ)
    (h : badSinL ts) (hok : to_ast ts' = .ok st) :
    (∃ e, to_ast ts = .error e) ∧
    (¬ badNumL ts → to_ast ts = .error .MissingArgument) ∧
    to_ast (ts' ++ [Token.Sin, Token.Number f])
      = .ok (pushLast st (Sound.Sin f)) := by
  refine ⟨toAstGo_badSin [[]] h, fun hn => toAstGo_badSin_missing [[]] h hn, ?_⟩
  rw [to_ast, toAstGo_append ts' [Token.Sin, Token.Number f] [[]] (by simp)]
  rw [to_ast] at hok
  rw [hok]
  rfl

/-- Witness for C4 at `ts = [Sin]`, `ts' = []`, `f = 440`. -/
theorem claim_C4_witness :
    (∃ e, to_ast [Token.Sin] = .error e) ∧
    (¬ badNumL [Token.Sin] → to_ast [Token.Sin] = .error .MissingArgument) ∧
    to_ast ([] ++ [Token.Sin, Token.Number 440])
      = .ok (pushLast [[]] (Sound.Sin 440)) :=
  claim_C4 [Token.Sin] [] [[]] 440 ⟨[], [], rfl, by simp⟩ rfl

/-- Claim C5, counterexample: `[Sin, Pipe, Number 100]` contains a
`Number` not immediately preceded by a `Sin`, but parsing fails with
`MissingArgument` (the dangling `Sin` is hit first), not
`UnexpectedToken`. -/
theorem claim_C5_cex :
    badNumL [Token.Sin, Token.Pipe, Token.Number 100] ∧
    to_ast [Token.Sin, Token.Pipe, Token.Number 100]
      = .error .MissingArgument ∧
    ParseError.MissingArgument ≠ ParseError.UnexpectedToken :=
  ⟨⟨[Token.Sin, Token.Pipe], 100, [], rfl, by decide⟩, rfl, by decide⟩

/-- Claim C5, amended: a token sequence containing a `Number` not
immediately preceded by a `Sin` always fails to parse; the error is
`UnexpectedToken` whenever the sequence contains no dangling `Sin` (a
`Sin` not immediately followed by a `Number`) — a dangling `Sin`
encountered first yields `MissingArgument` instead.  In particular the
single-token input `"100"` fails with `UnexpectedToken`. -/
theorem claim_C5 (ts : List Token) (h : badNumL ts) :
    (∃ e, to_ast ts = .error e) ∧
    (¬ badSinL ts → to_ast ts = .error .UnexpectedToken) ∧
    tokenize "100".toList = .ok [Token.Number 100] ∧
    to_ast [Token.Number 100] = .error .UnexpectedToken :=
  ⟨toAstGo_badNum [[]] h, fun hs => toAstGo_badNum_unexpected [[]] h hs,
    rfl, rfl⟩

/-- Witness for C5 at `ts = [Number 100]`. -/
theorem claim_C5_witness :
    (∃ e, to_ast [Token.Number 100] = .error e) ∧
    (¬ badSinL [Token.Number 100] →
      to_ast [Token.Number 100] = .error .UnexpectedToken) ∧
    tokenize "100".toList = .ok [Token.Number 100] ∧
    to_ast [Token.Number 100] = .error .UnexpectedToken :=
  claim_C5 [Token.Number 100] ⟨[], 100, [], rfl, by simp⟩

/-! ## `write_data` lemmas -/

/-- The inner frame loop only looks at the frame's length. -/
theorem writeFrame_eq_mkFrame (frame : List ℚ) (lr : ℚ × ℚ) :
    writeFrame frame lr = mkFrame frame.length lr := by
  unfold writeFrame mkFrame
  rw [← List.enum_map_fst frame, List.map_map]
  rfl

/-- A full frame has one sample per channel. -/
theorem mkFrame_length (channels : Nat) (lr : ℚ × ℚ) :
    (mkFrame channels lr).length = channels := by
  simp [mkFrame]

/-- `writeGo` on a buffer of exactly `n` frames produces the `n` frames
of the stereo stream, whatever the buffer's initial contents, provided
the fuel covers the buffer (every step consumes at least one element). -/
theorem writeGo_spec (n : Nat) :
    ∀ (fuel i : Nat) (l : List ℚ) (channels : Nat) (ns : Nat → ℚ × ℚ),
      1 ≤ channels → l.length = n * channels → l.length ≤ fuel →
      writeGo fuel i l channels ns = framesOut i n channels ns := by
  induction n with
  | zero =>
      intro fuel i l channels ns _ hlen _
      obtain rfl : l = [] := List.eq_nil_of_length_eq_zero (by simpa using hlen)
      cases fuel <;> rfl
  | succ m ih =>
      intro fuel i l channels ns hC hlen hfuel
      have hlC : channels ≤ l.length := by
        rw [hlen, Nat.succ_mul]; exact Nat.le_add_left _ _
      obtain ⟨x, xs, rfl⟩ : ∃ x xs, l = x :: xs := by
        cases l with
        | nil => simp at hlC; omega
        | cons x xs => exact ⟨x, xs, rfl⟩
      obtain ⟨f, rfl⟩ : ∃ f, fuel = f + 1 := by
        cases fuel with
        | zero => simp at hfuel
        | succ f => exact ⟨f, rfl⟩
      show writeFrame ((x :: xs).take channels) (ns i) ++
          writeGo f (i + 1) ((x :: xs).drop channels) channels ns
        = framesOut i (m + 1) channels ns
      rw [writeFrame_eq_mkFrame, List.length_take,
        Nat.min_eq_left hlC]
      rw [ih f (i + 1) ((x :: xs).drop channels) channels ns hC
        (by rw [List.length_drop, hlen, Nat.succ_mul, Nat.add_sub_cancel])
        (by rw [List.length_drop]; omega)]
      rfl

/-- `framesOut` fills exactly `n · channels` slots. -/
theorem framesOut_length (i n channels : Nat) (ns : Nat → ℚ × ℚ) :
    (framesOut i n channels ns).length = n * channels := by
  induction n generalizing i with
  | zero => rw [Nat.zero_mul]; rfl
  | succ m ih =>
      show (mkFrame channels (ns i) ++ framesOut (i + 1) m channels ns).length
        = (m + 1) * channels
      rw [List.length_append, mkFrame_length, ih]
      ring

/-- The sample written at frame `k`, channel `j`: the left sample of the
`k`-th stereo pair at even `j`, the right sample at odd `j`. -/
theorem framesOut_getElem (k : Nat) :
    ∀ (i n channels j : Nat) (ns : Nat → ℚ × ℚ), k < n → j < channels →
      (framesOut i n channels ns)[k * channels + j]?
        = some (if j % 2 = 0 then (ns (i + k)).1 else (ns (i + k)).2) := by
  induction k with
  | zero =>
      intro i n channels j ns hk hj
      obtain ⟨m, rfl⟩ : ∃ m, n = m + 1 := by
        cases n with
        | zero => omega
        | succ m => exact ⟨m, rfl⟩
      show (mkFrame channels (ns i) ++ framesOut (i + 1) m channels ns)[0 * channels + j]?
        = _
      rw [Nat.zero_mul, Nat.zero_add,
        List.getElem?_append_left (by rw [mkFrame_length]; omega)]
      simp [mkFrame, List.getElem?_map, List.getElem?_range hj]
  | succ p ih =>
      intro i n channels j ns hk hj
      obtain ⟨m, rfl⟩ : ∃ m, n = m + 1 := by
        cases n with
        | zero => omega
        | succ m => exact ⟨m, rfl⟩
      show (mkFrame channels (ns i) ++ framesOut (i + 1) m channels ns)[(p + 1) * channels + j]?
        = _
      rw [List.getElem?_append_right (by rw [mkFrame_length]; nlinarith)]
      rw [mkFrame_length]
      have harith : (p + 1) * channels + j - channels = p * channels + j := by
        rw [Nat.succ_mul]; omega
      rw [harith, ih (i + 1) m channels j ns (by omega) hj]
      have : i + 1 + p = i + (p + 1) := by omega
      rw [this]

/-- Claim C6: for every channel count `C ≥ 1` and buffer of length
`N·C`, `write_data` assigns every element (the result has length `N·C`
and is independent of the buffer's previous contents), and within each
frame the slot at even channel index receives the left sample and the
slot at odd channel index the right sample of that frame's stereo
pair. -/
theorem claim_C6 (output : List ℚ) (channels n : Nat) (ns : Nat → ℚ × ℚ)
    (hC : 1 ≤ channels) (hlen : output.length = n * channels) :
    ∃ r, write_data output channels ns = some r ∧
      r.length = n * channels ∧
      (∀ output' : List ℚ, output'.length = output.length →
        write_data output' channels ns = write_data output channels ns) ∧
      ∀ k j, k < n → j < channels →
        r[k * channels + j]?
          = some (if j % 2 = 0 then (ns k).1 else (ns k).2) := by
  have hC0 : channels ≠ 0 := by omega
  refine ⟨framesOut 0 n channels ns, ?_, framesOut_length 0 n channels ns,
    ?_, ?_⟩
  · rw [write_data, if_neg hC0,
      writeGo_spec n output.length 0 output channels ns hC hlen le_rfl]
  · intro output' hlen'
    rw [write_data, if_neg hC0, write_data, if_neg hC0,
      writeGo_spec n output.length 0 output channels ns hC hlen le_rfl,
      writeGo_spec n output'.length 0 output' channels ns hC
        (hlen'.trans hlen) le_rfl]
  · intro k j hk hj
    simpa using framesOut_getElem k 0 n channels j ns hk hj

/-- Witness for C6: a 3-frame stereo buffer. -/
theorem claim_C6_witness :
    ∃ r, write_data [0, 0, 0, 0, 0, 0] 2 (fun i => ((i : ℚ), -(i : ℚ)))
        = some r ∧
      r.length = 3 * 2 ∧
      (∀ output' : List ℚ,
        output'.length = ([0, 0, 0, 0, 0, 0] : List ℚ).length →
        write_data output' 2 (fun i => ((i : ℚ), -(i : ℚ)))
          = write_data [0, 0, 0, 0, 0, 0] 2 (fun i => ((i : ℚ), -(i : ℚ)))) ∧
      ∀ k j : Nat, k < 3 → j < 2 →
        r[k * 2 + j]?
          = some (if j % 2 = 0 then ((k : ℚ), -(k : ℚ)).1
                  else ((k : ℚ), -(k : ℚ)).2) :=
  claim_C6 [0, 0, 0, 0, 0, 0] 2 3 (fun i => ((i : ℚ), -(i : ℚ)))
    (by decide) (by decide)

/-- Claim C10: `write_data` with `channels = 0` and a non-empty buffer
panics (`chunks_mut` with chunk size 0, modelled as `none`), while for
every `channels ≥ 1` it terminates normally on every buffer. -/
theorem claim_C10 (output : List ℚ) (channels : Nat) (ns : Nat → ℚ × ℚ)
    (_hne : output ≠ []) (hC : 1 ≤ channels) :
    write_data output 0 ns = none ∧
    ∃ r, write_data output channels ns = some r := by
  refine ⟨rfl, ?_⟩
  rw [write_data, if_neg (by omega)]
  exact ⟨_, rfl⟩

/-- Witness for C10 at a one-element buffer and one channel. -/
theorem claim_C10_witness :
    write_data [1] 0 (fun _ => (0, 0)) = none ∧
    ∃ r, write_data [1] 1 (fun _ => (0, 0)) = some r :=
  claim_C10 [1] 1 (fun _ => (0, 0)) (by decide) (by decide)

/-! ## Volume control (spec-modelled) -/

/-- Claim C7: for all loudness `L ∈ [0,1]`, volume-up yields
`min(L·2, 1)` and volume-down yields `L·0.5`; after any sequence of
up-events loudness never exceeds `1`, and after any sequence of
down-events from `L > 0` loudness strictly decreases but never reaches
exactly `0`. -/
theorem claim_C7 (L : ℚ) (n : Nat) :
    (0 ≤ L → L ≤ 1 → volumeUp L = min (L * 2) 1) ∧
    (0 ≤ L → L ≤ 1 → volumeDown L = L * (1 / 2)) ∧
    (0 ≤ L → L ≤ 1 → volumeUp^[n] L ≤ 1) ∧
    (0 < L → 0 < volumeDown^[n] L ∧
      volumeDown^[n + 1] L < volumeDown^[n] L) := by
  refine ⟨fun _ _ => rfl, fun _ _ => rfl, fun h0 h1 => ?_, fun hpos => ?_⟩
  · cases n with
    | zero => exact h1
    | succ m =>
        rw [Function.iterate_succ_apply']
        exact min_le_right _ _
  · have hdown : ∀ x : ℚ, 0 < x → 0 < volumeDown x ∧ volumeDown x < x := by
      intro x hx
      constructor
      · have : (0 : ℚ) < 1 / 2 := by norm_num
        exact mul_pos hx this
      · rw [volumeDown]
        nlinarith
    have hiter : 0 < volumeDown^[n] L := by
      induction n with
      | zero => exact hpos
      | succ m ihm =>
          rw [Function.iterate_succ_apply']
          exact (hdown _ ihm).1
    refine ⟨hiter, ?_⟩
    rw [Function.iterate_succ_apply']
    exact (hdown _ hiter).2

/-- Witness for C7 at `L = 1/2`, `n = 3`. -/
theorem claim_C7_witness :
    ((0 : ℚ) ≤ 1 / 2 → (1 / 2 : ℚ) ≤ 1 →
      volumeUp (1 / 2) = min ((1 / 2 : ℚ) * 2) 1) ∧
    ((0 : ℚ) ≤ 1 / 2 → (1 / 2 : ℚ) ≤ 1 →
      volumeDown (1 / 2) = (1 / 2 : ℚ) * (1 / 2)) ∧
    ((0 : ℚ) ≤ 1 / 2 → (1 / 2 : ℚ) ≤ 1 → volumeUp^[3] (1 / 2) ≤ 1) ∧
    ((0 : ℚ) < 1 / 2 → 0 < volumeDown^[3] (1 / 2) ∧
      volumeDown^[3 + 1] (1 / 2) < volumeDown^[3] (1 / 2)) :=
  claim_C7 (1 / 2) 3

/-! ## Signal-net lemmas -/

/-- Every parser-producible source node has exactly one output channel;
only `Sound::None` compiles to the zero-output default net. -/
theorem soundNet_out_length (sinFn : ℚ → ℚ) (sampleRate : ℚ) (rnd : Nat → ℚ)
    (s : Sound) (hs : s ≠ Sound.None) (n : Nat) :
    ((soundNet sinFn sampleRate rnd s).out n).length = 1 := by
  cases s with
  | Sin f => rfl
  | White => rfl
  | Brown => rfl
  | Pink => rfl
  | None => exact absurd rfl hs

/-- Folding the parallel sum over one-output nets keeps one output. -/
theorem foldl_netAdd_out_length (n : Nat) :
    ∀ (nets : List Net) (a : Net), (a.out n).length = 1 →
      (∀ b ∈ nets, (b.out n).length = 1) →
      (((nets.foldl netAdd a).out n)).length = 1 := by
  intro nets
  induction nets with
  | nil => intro a ha _; exact ha
  | cons b bs ih =>
      intro a ha hall
      rw [List.foldl_cons]
      refine ih (netAdd a b) ?_ fun c hc => hall c (by simp [hc])
      show (List.zipWith (· + ·) (a.out n) (b.out n)).length = 1
      rw [List.length_zipWith, ha, hall b (by simp)]
      rfl

/-- The nodes built for a stage's sounds (with any starting index for the
random-stream assignment) all have one output when the stage contains no
`Sound::None`. -/
theorem stage_nets_out_length (sinFn : ℚ → ℚ) (sampleRate : ℚ)
    (rnds : Nat → Nat → ℚ) (n : Nat) :
    ∀ (sounds : List Sound) (k : Nat), (∀ s ∈ sounds, s ≠ Sound.None) →
      ∀ b ∈ (sounds.enumFrom k).map
          (fun p => soundNet sinFn sampleRate (rnds p.1) p.2),
        (b.out n).length = 1 := by
  intro sounds
  induction sounds with
  | nil => intro k _ b hb; simp [List.enumFrom] at hb
  | cons x xs ih =>
      intro k hN b hb
      simp only [List.enumFrom, List.map_cons, List.mem_cons] at hb
      rcases hb with rfl | hb
      · exact soundNet_out_length _ _ _ x (hN x (by simp)) n
      · exact ih (k + 1) (fun s hs => hN s (by simp [hs])) b hb

/-- A non-empty stage without `Sound::None` compiles to a one-output
net. -/
theorem combine_out_length (sinFn : ℚ → ℚ) (sampleRate : ℚ)
    (rnds : Nat → Nat → ℚ) (sounds : List Sound) (hne : sounds ≠ [])
    (hN : ∀ s ∈ sounds, s ≠ Sound.None) (n : Nat) :
    ((combine sinFn sampleRate rnds sounds).out n).length = 1 := by
  cases sounds with
  | nil => exact absurd rfl hne
  | cons x xs =>
      show ((((xs.enumFrom 1).map
          (fun p => soundNet sinFn sampleRate (rnds p.1) p.2)).foldl netAdd
            (soundNet sinFn sampleRate (rnds 0) x)).out n).length = 1
      refine foldl_netAdd_out_length n _ _
        (soundNet_out_length _ _ _ x (hN x (by simp)) n) ?_
      exact stage_nets_out_length sinFn sampleRate rnds n xs 1
        (fun s hs => hN s (by simp [hs]))

/-- Folding the stack operator concatenates the output channels in
order. -/
theorem foldl_netStack_out (n : Nat) :
    ∀ (nets : List Net) (a : Net),
      ((nets.foldl netStack a).out n)
        = a.out n ++ (nets.map fun b => b.out n).flatten := by
  intro nets
  induction nets with
  | nil => intro a; simp
  | cons b bs ih =>
      intro a
      rw [List.foldl_cons, ih (netStack a b)]
      show (a.out n ++ b.out n) ++ _ = _
      simp

/-- The channel counts contributed by a list of compiled non-empty,
`None`-free stages: one channel per stage. -/
theorem stages_flatten_length (sinFn : ℚ → ℚ) (sampleRate : ℚ)
    (rnds : Nat → Nat → Nat → ℚ) (n : Nat) :
    ∀ (stages : List (List Sound)) (k : Nat), (∀ s ∈ stages, s ≠ []) →
      (∀ s ∈ stages, ∀ x ∈ s, x ≠ Sound.None) →
      ((((stages.enumFrom k).map
        (fun p => combine sinFn sampleRate (rnds p.1) p.2)).map
          (fun b => b.out n)).flatten).length = stages.length := by
  intro stages
  induction stages with
  | nil => intro k _ _; rfl
  | cons s ss ih =>
      intro k hne hN
      simp only [List.enumFrom, List.map_cons, List.flatten_cons,
        List.length_append, List.length_cons]
      rw [combine_out_length sinFn sampleRate (rnds k) s (hne s (by simp))
          (hN s (by simp)) n,
        ih (k + 1) (fun t ht => hne t (by simp [ht]))
          (fun t ht => hN t (by simp [ht]))]
      omega

/-- Claim C8: parallel-sum mixing within a stage is commutative — the
stage `{Sine f, White}` compiles to the same per-frame output samples in
either declared order, given that the white-noise node consumes the same
random-source values (`r1 1 = r2 0`: in `[Sin f, White]` the white node
is node 1, in `[White, Sin f]` it is node 0). -/
theorem claim_C8 (sinFn : ℚ → ℚ) (sampleRate f : ℚ)
    (r1 r2 : Nat → Nat → ℚ) (h : r1 1 = r2 0) (n : Nat) :
    (combine sinFn sampleRate r1 [Sound.Sin f, Sound.White]).out n
      = (combine sinFn sampleRate r2 [Sound.White, Sound.Sin f]).out n := by
  show [sinFn (f * (n : ℚ) / sampleRate) + r1 1 n]
      = [r2 0 n + sinFn (f * (n : ℚ) / sampleRate)]
  rw [congrFun h n, add_comm]

/-- Witness for C8 at concrete waveform, rate, frequency and stream. -/
theorem claim_C8_witness :
    (combine (fun x => x) 1 (fun _ _ => 1)
        [Sound.Sin 1, Sound.White]).out 0
      = (combine (fun x => x) 1 (fun _ _ => 1)
        [Sound.White, Sound.Sin 1]).out 0 :=
  claim_C8 (fun x => x) 1 1 (fun _ _ => 1) (fun _ _ => 1) rfl 0

/-- Claim C9, counterexample: in the two-stage pipeline `[[], [White]]`
(source text `"| white"`) the first stage compiles to a net with no
output channel, so the emitted stereo pair `(1, 1)` takes its left
sample from the *second* stage's white node (stream constantly `1`), not
from the first stage — refuting "the stereo pair takes its left sample
solely from the first Stage's output" for pipelines that may contain an
empty stage. -/
theorem claim_C9_cex :
    getStereo (compilePipeline (fun x => x) 1 (fun _ _ _ => 1)
        [[], [Sound.White]]) 0 = (1, 1) ∧
    (combine (fun x => x) 1 (fun _ _ => 1) (([] : List Sound))).out 0 = [] :=
  ⟨rfl, rfl⟩

/-- Claim C9, amended: for every pipeline of at least two stages that are
all non-empty (and contain only parser-producible sources, i.e. no
`Sound::None`), the compiled graph stacks the stages — each stage
contributes exactly one output channel, in order — and the stereo pair
read per frame takes its left sample solely from the first stage's
output and its right sample solely from the second stage's output;
stages beyond the second never contribute to the emitted pair. -/
theorem claim_C9 (sinFn : ℚ → ℚ) (sampleRate : ℚ)
    (rnds : Nat → Nat → Nat → ℚ) (s1 s2 : List Sound)
    (rest : List (List Sound)) (n : Nat)
    (h1 : s1 ≠ []) (h2 : s2 ≠ []) (hrest : ∀ s ∈ rest, s ≠ [])
    (hN : ∀ s ∈ s1 :: s2 :: rest, ∀ x ∈ s, x ≠ Sound.None) :
    getStereo (compilePipeline sinFn sampleRate rnds (s1 :: s2 :: rest)) n
      = (out1 (combine sinFn sampleRate (rnds 0) s1) n,
         out1 (combine sinFn sampleRate (rnds 1) s2) n) ∧
    ((compilePipeline sinFn sampleRate rnds (s1 :: s2 :: rest)).out n).length
      = 2 + rest.length := by
  have hout : (compilePipeline sinFn sampleRate rnds (s1 :: s2 :: rest)).out n
      = (combine sinFn sampleRate (rnds 0) s1).out n ++
        ((combine sinFn sampleRate (rnds 1) s2).out n ++
          (((rest.enumFrom 2).map
            (fun p => combine sinFn sampleRate (rnds p.1) p.2)).map
              (fun b => b.out n)).flatten) := by
    show ((((rest.enumFrom 2).map
        (fun p => combine sinFn sampleRate (rnds p.1) p.2)).foldl netStack
          (netStack (combine sinFn sampleRate (rnds 0) s1)
            (combine sinFn sampleRate (rnds 1) s2))).out n) = _
    rw [foldl_netStack_out]
    show ((combine sinFn sampleRate (rnds 0) s1).out n ++
        (combine sinFn sampleRate (rnds 1) s2).out n) ++ _ = _
    rw [List.append_assoc]
  obtain ⟨x, hx⟩ := List.length_eq_one.mp
    (combine_out_length sinFn sampleRate (rnds 0) s1 h1
      (hN s1 (by simp)) n)
  obtain ⟨y, hy⟩ := List.length_eq_one.mp
    (combine_out_length sinFn sampleRate (rnds 1) s2 h2
      (hN s2 (by simp)) n)
  constructor
  · rw [getStereo, hout, hx, hy, out1, out1, hx, hy]
    rfl
  · rw [hout, List.length_append, List.length_append, hx, hy]
    rw [stages_flatten_length sinFn sampleRate rnds n rest 2 hrest
      (fun s hs => hN s (by simp [hs]))]
    simp only [List.length_singleton]
    omega

/-- Witness for C9 at the two-stage pipeline `[[White], [Sin 1]]`: left
sample from the white node (stream constantly 1), right from the sine
node (phase 0). -/
theorem claim_C9_witness :
    getStereo (compilePipeline (fun x => x) 1 (fun _ _ _ => 1)
        [[Sound.White], [Sound.Sin 1]]) 0
      = (out1 (combine (fun x => x) 1 (fun _ _ => 1) [Sound.White]) 0,
         out1 (combine (fun x => x) 1 (fun _ _ => 1) [Sound.Sin 1]) 0) ∧
    ((compilePipeline (fun x => x) 1 (fun _ _ _ => 1)
        [[Sound.White], [Sound.Sin 1]]).out 0).length = 2 :=
  claim_C9 (fun x => x) 1 (fun _ _ _ => 1) [Sound.White] [Sound.Sin 1] [] 0
    (by decide) (by decide) (by simp) (by decide)

/-! ## Lexer lemmas -/

/-- One-step unfolding of the lexer loop at positive fuel. -/
theorem lexGo_succ_eq (fuel : Nat) (c : Char) (l : List Char) :
    lexGo (fuel + 1) (c :: l) =
      if isWs c then lexGo fuel l
      else if c.isDigit then
        match scanNumber (c :: l) with
        | .error e => .error e
        | .ok (q, rest) => Except.map (Token.Number q :: ·) (lexGo fuel rest)
      else
        match c, l with
        | '|', cs => Except.map (Token.Pipe :: ·) (lexGo fuel cs)
        | 's', 'i' :: 'n' :: cs => Except.map (Token.Sin :: ·) (lexGo fuel cs)
        | 'w', 'h' :: 'i' :: 't' :: 'e' :: cs =>
            Except.map (Token.White :: ·) (lexGo fuel cs)
        | 'b', 'r' :: 'o' :: 'w' :: 'n' :: cs =>
            Except.map (Token.Brown :: ·) (lexGo fuel cs)
        | 'p', 'i' :: 'n' :: 'k' :: cs =>
            Except.map (Token.Pink :: ·) (lexGo fuel cs)
        | _, _ => .error .Default := rfl

/-- The skip class, explicitly. -/
theorem isWs_cases {c : Char} (h : isWs c = true) :
    c = '\x20' ∨ c = '\t' ∨ c = '\n' ∨ c = '\x0c' := by
  have h' := h
  simp only [isWs, Bool.or_eq_true, decide_eq_true_eq] at h'
  tauto

/-- No skip character is a digit. -/
theorem not_isDigit_of_isWs {c : Char} (h : isWs c = true) :
    c.isDigit = false := by
  rcases isWs_cases h with rfl | rfl | rfl | rfl <;> rfl

/-- No digit is a skip character. -/
theorem not_isWs_of_isDigit {c : Char} (h : c.isDigit = true) :
    isWs c = false := by
  cases hw : isWs c with
  | false => rfl
  | true => rw [not_isDigit_of_isWs hw] at h; exact absurd h (by simp)

/-- Skipping one whitespace character. -/
theorem lexGo_ws {c : Char} (h : isWs c = true) (fuel : Nat) (l : List Char) :
    lexGo (fuel + 1) (c :: l) = lexGo fuel l := by
  rw [lexGo_succ_eq, if_pos h]

/-- Consuming one recognized numeric literal. -/
theorem lexGo_digit {c : Char} (hd : c.isDigit = true) (fuel : Nat)
    (l : List Char) {q : ℚ} {rest : List Char}
    (hs : scanNumber (c :: l) = .ok (q, rest)) :
    lexGo (fuel + 1) (c :: l)
      = Except.map (Token.Number q :: ·) (lexGo fuel rest) := by
  rw [lexGo_succ_eq, if_neg (by simp [not_isWs_of_isDigit hd]), if_pos hd, hs]

/-- A well-formed lexeme is spelled with at least one character. -/
theorem Lexeme.chars_ne_nil {L : Lexeme} (h : L.WF) : L.chars ≠ [] := by
  cases L with
  | intLit ds => exact fun hc => h.1 hc
  | decLit ds fs => cases ds with
      | nil => exact absurd rfl h.1
      | cons c cs => simp [Lexeme.chars]
  | kwSin => simp [Lexeme.chars]
  | kwWhite => simp [Lexeme.chars]
  | kwBrown => simp [Lexeme.chars]
  | kwPink => simp [Lexeme.chars]
  | sep => simp [Lexeme.chars]
  | wsChar c => simp [Lexeme.chars]

/-- No well-formed lexeme starts with a dot. -/
theorem Lexeme.head_ne_dot {L : Lexeme} (h : L.WF) {d : Char}
    (hd : L.chars.head? = some d) : d ≠ '.' := by
  cases L with
  | intLit ds =>
      cases ds with
      | nil => exact absurd rfl h.1
      | cons c cs =>
          injection hd with hd
          subst hd
          intro hc
          subst hc
          exact absurd (h.2 '.' (by simp)) (by simp)
  | decLit ds fs =>
      cases ds with
      | nil => exact absurd rfl h.1
      | cons c cs =>
          injection hd with hd
          subst hd
          intro hc
          subst hc
          exact absurd (h.2.1 '.' (by simp)) (by simp)
  | kwSin => injection hd with hd; subst hd; decide
  | kwWhite => injection hd with hd; subst hd; decide
  | kwBrown => injection hd with hd; subst hd; decide
  | kwPink => injection hd with hd; subst hd; decide
  | sep => injection hd with hd; subst hd; decide
  | wsChar c =>
      injection hd with hd
      subst hd
      rcases isWs_cases h with rfl | rfl | rfl | rfl <;> decide

/-- A lexeme with `digitStart = false` does not start with a digit. -/
theorem Lexeme.head_not_digit {L : Lexeme} (hds : L.digitStart = false)
    {d : Char} (hd : L.chars.head? = some d) : d.isDigit = false := by
  unfold Lexeme.digitStart at hds
  cases hc : L.chars with
  | nil => rw [hc] at hd; exact absurd hd (by simp)
  | cons e es =>
      rw [hc] at hd hds
      injection hd with hd
      rw [hd] at hds
      exact hds

/-- `takeWhile`/`dropWhile` on a satisfying block followed by a
non-satisfying boundary. -/
theorem takeWhile_dropWhile_append (p : Char → Bool) :
    ∀ (ds t : List Char), (∀ c ∈ ds, p c = true) →
      (∀ d, t.head? = some d → p d = false) →
      (ds ++ t).takeWhile p = ds ∧ (ds ++ t).dropWhile p = t := by
  intro ds
  induction ds with
  | nil =>
      intro t _ ht
      cases t with
      | nil => exact ⟨rfl, rfl⟩
      | cons d t' =>
          rw [List.nil_append]
          rw [List.takeWhile_cons, List.dropWhile_cons, ht d rfl]
          exact ⟨rfl, rfl⟩
  | cons c cs ih =>
      intro t hall ht
      obtain ⟨h1, h2⟩ := ih t (fun x hx => hall x (by simp [hx])) ht
      rw [List.cons_append, List.takeWhile_cons, List.dropWhile_cons,
        hall c (by simp), h1]
      exact ⟨rfl, h2⟩

/-- `scanNumber` on an integer literal followed by a boundary that is
neither a digit nor a dot. -/
theorem scanNumber_int (ds t : List Char)
    (hd : ∀ c ∈ ds, c.isDigit = true)
    (ht : ∀ d, t.head? = some d → d.isDigit = false ∧ d ≠ '.')
    (hr : natOfDigits ds < 2 ^ 64) :
    scanNumber (ds ++ t) = .ok ((natOfDigits ds : ℚ), t) := by
  obtain ⟨h1, h2⟩ :=
    takeWhile_dropWhile_append Char.isDigit ds t hd (fun d h => (ht d h).1)
  unfold scanNumber
  split
  · rename_i r heq
    rw [h2] at heq
    exact absurd (ht '.' (by rw [heq]; rfl)).2 (by simp)
  · rw [h1, h2, if_pos hr]

/-- `scanNumber` on a decimal literal followed by a boundary that is not
a digit. -/
theorem scanNumber_dec (ds fs t : List Char)
    (hd : ∀ c ∈ ds, c.isDigit = true) (hf : ∀ c ∈ fs, c.isDigit = true)
    (ht : ∀ d, t.head? = some d → d.isDigit = false) :
    scanNumber (ds ++ '.' :: (fs ++ t))
      = .ok ((natOfDigits ds : ℚ) +
          (natOfDigits fs : ℚ) / (10 : ℚ) ^ fs.length, t) := by
  obtain ⟨h1, h2⟩ := takeWhile_dropWhile_append Char.isDigit ds ('.' :: (fs ++ t))
    hd (fun d h => by injection h with h; rw [← h]; rfl)
  obtain ⟨h3, h4⟩ := takeWhile_dropWhile_append Char.isDigit fs t hf ht
  unfold scanNumber
  split
  · rename_i r heq
    rw [h2] at heq
    injection heq with _ heq2
    rw [h1, ← heq2, h3, h4]
  · rename_i hno
    exact absurd (by rw [h2]) (hno (fs ++ t))

/-- Consuming one whole numeric lexeme: `lexGo` tokenizes it to a single
`Number` token and continues at the boundary. -/
theorem lexGo_num (fuel : Nat) (L : Lexeme) (hnum : L.isNum = true)
    (hWF : L.WF) (hR : L.inRange) (t : List Char)
    (ht : ∀ d, t.head? = some d → d.isDigit = false ∧ d ≠ '.') :
    ∃ q, lexGo (fuel + 1) (L.chars ++ t)
      = Except.map (Token.Number q :: ·) (lexGo fuel t) := by
  cases L with
  | intLit ds =>
      obtain ⟨hne, hd⟩ := hWF
      obtain ⟨c, cs, rfl⟩ : ∃ c cs, ds = c :: cs := by
        cases ds with
        | nil => exact absurd rfl hne
        | cons c cs => exact ⟨c, cs, rfl⟩
      refine ⟨(natOfDigits (c :: cs) : ℚ), ?_⟩
      have hc : c.isDigit = true := hd c (by simp)
      have hscan : scanNumber (c :: (cs ++ t))
          = .ok ((natOfDigits (c :: cs) : ℚ), t) := by
        rw [show c :: (cs ++ t) = (c :: cs) ++ t from rfl]
        exact scanNumber_int (c :: cs) t hd ht hR
      exact lexGo_digit hc fuel (cs ++ t) hscan
  | decLit ds fs =>
      obtain ⟨hne, hd, hf⟩ := hWF
      obtain ⟨c, cs, rfl⟩ : ∃ c cs, ds = c :: cs := by
        cases ds with
        | nil => exact absurd rfl hne
        | cons c cs => exact ⟨c, cs, rfl⟩
      refine ⟨(natOfDigits (c :: cs) : ℚ) +
        (natOfDigits fs : ℚ) / (10 : ℚ) ^ fs.length, ?_⟩
      have hc : c.isDigit = true := hd c (by simp)
      have hscan : scanNumber (c :: (cs ++ '.' :: (fs ++ t)))
          = .ok ((natOfDigits (c :: cs) : ℚ) +
              (natOfDigits fs : ℚ) / (10 : ℚ) ^ fs.length, t) := by
        rw [show c :: (cs ++ '.' :: (fs ++ t))
          = (c :: cs) ++ '.' :: (fs ++ t) from rfl]
        exact scanNumber_dec (c :: cs) fs t hd hf (fun d h => (ht d h).1)
      have hl : Lexeme.chars (.decLit (c :: cs) fs) ++ t
          = c :: (cs ++ '.' :: (fs ++ t)) := by
        simp [Lexeme.chars]
      rw [hl]
      exact lexGo_digit hc fuel _ hscan
  | kwSin => exact absurd hnum (by simp [Lexeme.isNum])
  | kwWhite => exact absurd hnum (by simp [Lexeme.isNum])
  | kwBrown => exact absurd hnum (by simp [Lexeme.isNum])
  | kwPink => exact absurd hnum (by simp [Lexeme.isNum])
  | sep => exact absurd hnum (by simp [Lexeme.isNum])
  | wsChar c => exact absurd hnum (by simp [Lexeme.isNum])

/-- The separation condition restricted to the tail. -/
theorem Sep.tail {a : Lexeme} {ls : List Lexeme} (h : Sep (a :: ls)) :
    Sep ls := by
  cases ls with
  | nil => trivial
  | cons b ls' => exact h.2

/-- Extending a separated list at the head. -/
theorem Sep.cons {a : Lexeme} {ls : List Lexeme} (h : Sep ls)
    (hh : ∀ b ls', ls = b :: ls' → a.isNum = true → b.digitStart = false) :
    Sep (a :: ls) := by
  cases ls with
  | nil => trivial
  | cons b ls' => exact ⟨hh b ls' rfl, h⟩

/-- The first character of a lexeme concatenation is the first character
of the first lexeme. -/
theorem flatten_head (l₁ : Lexeme) (ls : List Lexeme) (h : l₁.chars ≠ []) :
    (((l₁ :: ls).map Lexeme.chars).flatten).head? = l₁.chars.head? := by
  cases hc : l₁.chars with
  | nil => exact absurd hc h
  | cons c cs => simp [hc]

/-- A successful `Except.map` comes from a successful computation. -/
theorem except_map_ok {ε α β : Type} {f : α → β} {x : Except ε α} {b : β}
    (h : Except.map f x = .ok b) : ∃ a, x = .ok a := by
  cases x with
  | ok a => exact ⟨a, rfl⟩
  | error e => exact absurd h (by simp [Except.map])

/-- A successful `scanNumber` starting at a digit consumed exactly one
well-formed, in-range numeric lexeme, and stopped at a non-digit. -/
theorem scanNumber_spec {c : Char} {cs : List Char} {q : ℚ}
    {rest : List Char} (hd : c.isDigit = true)
    (h : scanNumber (c :: cs) = .ok (q, rest)) :
    ∃ L : Lexeme, L.isNum = true ∧ L.WF ∧ L.inRange ∧
      c :: cs = L.chars ++ rest ∧
      ∀ d, rest.head? = some d → d.isDigit = false := by
  have htd := List.takeWhile_append_dropWhile Char.isDigit (c :: cs)
  have htw : (c :: cs).takeWhile Char.isDigit
      = c :: cs.takeWhile Char.isDigit := by
    rw [List.takeWhile_cons, if_pos hd]
  unfold scanNumber at h
  split at h
  · rename_i r heq
    injection h with h'
    injection h' with hq hrest
    refine ⟨.decLit ((c :: cs).takeWhile Char.isDigit)
      (r.takeWhile Char.isDigit), rfl, ?_, trivial, ?_, ?_⟩
    · exact ⟨by rw [htw]; simp,
        fun x hx => List.mem_takeWhile_imp hx,
        fun x hx => List.mem_takeWhile_imp hx⟩
    · show c :: cs = ((c :: cs).takeWhile Char.isDigit ++
        '.' :: r.takeWhile Char.isDigit) ++ rest
      rw [← hrest, List.append_assoc, List.cons_append,
        List.takeWhile_append_dropWhile, ← heq, htd]
    · intro d hdd
      have hh := List.head?_dropWhile_not Char.isDigit r
      rw [← hrest] at hdd
      rw [hdd] at hh
      exact hh
  · rename_i hno
    by_cases hlt : natOfDigits ((c :: cs).takeWhile Char.isDigit) < 2 ^ 64
    · rw [if_pos hlt] at h
      injection h with h'
      injection h' with hq hrest
      refine ⟨.intLit ((c :: cs).takeWhile Char.isDigit), rfl,
        ⟨by rw [htw]; simp, fun x hx => List.mem_takeWhile_imp hx⟩, hlt,
        ?_, ?_⟩
      · show c :: cs = (c :: cs).takeWhile Char.isDigit ++ rest
        rw [← hrest, htd]
      · intro d hdd
        have hh := List.head?_dropWhile_not Char.isDigit (c :: cs)
        rw [← hrest] at hdd
        rw [hdd] at hh
        exact hh
    · rw [if_neg hlt] at h
      exact absurd h (by simp)

/-- The empty input is (trivially) a concatenation of lexemes. -/
theorem goodDecomp_nil : GoodDecomp [] :=
  ⟨[], by simp, trivial, rfl⟩

/-- Prepending one lexeme to an accepted decomposition, provided a
numeric lexeme is not glued to a following digit. -/
theorem goodDecomp_cons (L : Lexeme) {t : List Char} (hWF : L.WF)
    (hR : L.inRange)
    (hsep : L.isNum = true → ∀ d, t.head? = some d → d.isDigit = false)
    (h : GoodDecomp t) : GoodDecomp (L.chars ++ t) := by
  obtain ⟨ls, hall, hsp, rfl⟩ := h
  refine ⟨L :: ls, ?_, ?_, by simp⟩
  · intro l hl
    rcases List.mem_cons.mp hl with rfl | hl
    · exact ⟨hWF, hR⟩
    · exact hall l hl
  · refine Sep.cons hsp ?_
    intro b ls' hls hnum
    subst hls
    cases hbc : b.chars with
    | nil => exact absurd hbc (Lexeme.chars_ne_nil (hall b (by simp)).1)
    | cons d es =>
        have hh : ((b :: ls').map Lexeme.chars).flatten.head? = some d := by
          rw [flatten_head b ls' (by rw [hbc]; simp), hbc]
          rfl
        unfold Lexeme.digitStart
        rw [hbc]
        exact hsep hnum d hh

/-- Forward direction: whatever the lexer accepts is a concatenation of
well-formed, in-range, properly separated lexemes. -/
theorem lexGo_goodDecomp :
    ∀ (fuel : Nat) (s : List Char), (∃ ts, lexGo fuel s = .ok ts) →
      GoodDecomp s := by
  intro fuel s
  induction fuel, s using lexGo.induct with
  | case1 t => exact fun _ => goodDecomp_nil
  | case2 c cs => rintro ⟨ts, h⟩; exact absurd h (by simp [lexGo])
  | case3 fuel c cs hws ih =>
      rintro ⟨ts, h⟩
      rw [lexGo_ws hws] at h
      have hgd := ih ⟨ts, h⟩
      have : (Lexeme.wsChar c).chars ++ cs = c :: cs := rfl
      rw [← this]
      exact goodDecomp_cons (.wsChar c) hws trivial
        (fun hnum => by simp [Lexeme.isNum] at hnum) hgd
  | case4 fuel c cs hws hd e hscan =>
      rintro ⟨ts, h⟩
      rw [lexGo_succ_eq, if_neg hws, if_pos hd, hscan] at h
      exact absurd h (by simp)
  | case5 fuel c cs hws hd q rest hscan ih =>
      rintro ⟨ts, h⟩
      rw [lexGo_digit hd fuel cs hscan] at h
      obtain ⟨ts', hts'⟩ := except_map_ok h
      have hgd := ih ⟨ts', hts'⟩
      obtain ⟨L, hnum, hWF, hR, heq, hrest⟩ := scanNumber_spec hd hscan
      rw [heq]
      exact goodDecomp_cons L hWF hR (fun _ => hrest) hgd
  | case6 fuel cs hws hd ih =>
      rintro ⟨ts, h⟩
      rw [show lexGo (fuel + 1) ('|' :: cs)
        = Except.map (Token.Pipe :: ·) (lexGo fuel cs) from rfl] at h
      obtain ⟨ts', hts'⟩ := except_map_ok h
      exact goodDecomp_cons .sep trivial trivial
        (fun hnum => by simp [Lexeme.isNum] at hnum) (ih ⟨ts', hts'⟩)
  | case7 fuel cs hws hd ih =>
      rintro ⟨ts, h⟩
      rw [show lexGo (fuel + 1) ('s' :: 'i' :: 'n' :: cs)
        = Except.map (Token.Sin :: ·) (lexGo fuel cs) from rfl] at h
      obtain ⟨ts', hts'⟩ := except_map_ok h
      exact goodDecomp_cons .kwSin trivial trivial
        (fun hnum => by simp [Lexeme.isNum] at hnum) (ih ⟨ts', hts'⟩)
  | case8 fuel cs hws hd ih =>
      rintro ⟨ts, h⟩
      rw [show lexGo (fuel + 1) ('w' :: 'h' :: 'i' :: 't' :: 'e' :: cs)
        = Except.map (Token.White :: ·) (lexGo fuel cs) from rfl] at h
      obtain ⟨ts', hts'⟩ := except_map_ok h
      exact goodDecomp_cons .kwWhite trivial trivial
        (fun hnum => by simp [Lexeme.isNum] at hnum) (ih ⟨ts', hts'⟩)
  | case9 fuel cs hws hd ih =>
      rintro ⟨ts, h⟩
      rw [show lexGo (fuel + 1) ('b' :: 'r' :: 'o' :: 'w' :: 'n' :: cs)
        = Except.map (Token.Brown :: ·) (lexGo fuel cs) from rfl] at h
      obtain ⟨ts', hts'⟩ := except_map_ok h
      exact goodDecomp_cons .kwBrown trivial trivial
        (fun hnum => by simp [Lexeme.isNum] at hnum) (ih ⟨ts', hts'⟩)
  | case10 fuel cs hws hd ih =>
      rintro ⟨ts, h⟩
      rw [show lexGo (fuel + 1) ('p' :: 'i' :: 'n' :: 'k' :: cs)
        = Except.map (Token.Pink :: ·) (lexGo fuel cs) from rfl] at h
      obtain ⟨ts', hts'⟩ := except_map_ok h
      exact goodDecomp_cons .kwPink trivial trivial
        (fun hnum => by simp [Lexeme.isNum] at hnum) (ih ⟨ts', hts'⟩)
  | case11 fuel c cs hws hd hp hs hw hb hpk =>
      rintro ⟨ts, h⟩
      rw [lexGo_succ_eq, if_neg hws, if_neg hd] at h
      split at h
      · exact (hp rfl).elim
      · rename_i cs1; exact (hs cs1 rfl rfl).elim
      · rename_i cs1; exact (hw cs1 rfl rfl).elim
      · rename_i cs1; exact (hb cs1 rfl rfl).elim
      · rename_i cs1; exact (hpk cs1 rfl rfl).elim
      · exact absurd h (by simp)

/-- Backward direction: the lexer accepts every concatenation of
well-formed, in-range, properly separated lexemes. -/
theorem goodDecomp_lexes :
    ∀ (ls : List Lexeme), (∀ l ∈ ls, l.WF ∧ l.inRange) → Sep ls →
      ∀ fuel, ((ls.map Lexeme.chars).flatten).length ≤ fuel →
        ∃ ts, lexGo fuel ((ls.map Lexeme.chars).flatten) = .ok ts := by
  intro ls
  induction ls with
  | nil =>
      intro _ _ fuel _
      exact ⟨[], by cases fuel <;> rfl⟩
  | cons L ls ih =>
      intro hall hsep fuel hfuel
      have hWF := (hall L (by simp)).1
      have hR := (hall L (by simp)).2
      have hch := Lexeme.chars_ne_nil hWF
      rw [List.map_cons, List.flatten_cons] at hfuel ⊢
      obtain ⟨f, rfl⟩ : ∃ f, fuel = f + 1 := by
        cases fuel with
        | zero =>
            exfalso
            rw [List.length_append] at hfuel
            have := List.length_pos.mpr hch
            omega
        | succ f => exact ⟨f, rfl⟩
      have hlen : ((ls.map Lexeme.chars).flatten).length ≤ f := by
        rw [List.length_append] at hfuel
        have := List.length_pos.mpr hch
        omega
      obtain ⟨ts, hts⟩ :=
        ih (fun l hl => hall l (by simp [hl])) (Sep.tail hsep) f hlen
      have hbound : L.isNum = true →
          ∀ d, ((ls.map Lexeme.chars).flatten).head? = some d →
            d.isDigit = false ∧ d ≠ '.' := by
        intro hnum d hd
        cases ls with
        | nil => simp at hd
        | cons b ls' =>
            have hbWF := (hall b (by simp)).1
            rw [flatten_head b ls' (Lexeme.chars_ne_nil hbWF)] at hd
            exact ⟨Lexeme.head_not_digit (hsep.1 hnum) hd,
              Lexeme.head_ne_dot hbWF hd⟩
      cases hLnum : L.isNum with
      | true =>
          obtain ⟨q, hq⟩ :=
            lexGo_num f L hLnum hWF hR _ (fun d hd => hbound hLnum d hd)
          exact ⟨Token.Number q :: ts, by rw [hq, hts]; rfl⟩
      | false =>
          cases L with
          | intLit ds => exact absurd hLnum (by simp [Lexeme.isNum])
          | decLit ds fs => exact absurd hLnum (by simp [Lexeme.isNum])
          | kwSin =>
              refine ⟨Token.Sin :: ts, ?_⟩
              show Except.map (Token.Sin :: ·)
                (lexGo f ((ls.map Lexeme.chars).flatten)) = _
              rw [hts]
              rfl
          | kwWhite =>
              refine ⟨Token.White :: ts, ?_⟩
              show Except.map (Token.White :: ·)
                (lexGo f ((ls.map Lexeme.chars).flatten)) = _
              rw [hts]
              rfl
          | kwBrown =>
              refine ⟨Token.Brown :: ts, ?_⟩
              show Except.map (Token.Brown :: ·)
                (lexGo f ((ls.map Lexeme.chars).flatten)) = _
              rw [hts]
              rfl
          | kwPink =>
              refine ⟨Token.Pink :: ts, ?_⟩
              show Except.map (Token.Pink :: ·)
                (lexGo f ((ls.map Lexeme.chars).flatten)) = _
              rw [hts]
              rfl
          | sep =>
              refine ⟨Token.Pipe :: ts, ?_⟩
              show Except.map (Token.Pipe :: ·)
                (lexGo f ((ls.map Lexeme.chars).flatten)) = _
              rw [hts]
              rfl
          | wsChar c =>
              refine ⟨ts, ?_⟩
              show lexGo (f + 1) (c :: (ls.map Lexeme.chars).flatten) = _
              rw [lexGo_ws hWF, hts]

/-- Claim C3, counterexample: the input `"18446744073709551616"`
(`2^64`) is composed of nothing but an integer numeric literal, yet
lexing fails — `parse_int`'s `u64` parse overflows, a failure that
involves no unrecognized character. -/
theorem claim_C3_cex :
    ComposedOf ("18446744073709551616".toList) ∧
    tokenize ("18446744073709551616".toList) = .error .Err := by
  refine ⟨⟨[.intLit ("18446744073709551616".toList)], ?_, by
    simp [Lexeme.chars]⟩, rfl⟩
  intro l hl
  simp only [List.mem_singleton] at hl
  subst hl
  exact ⟨by decide, by decide⟩

/-- Claim C3, amended: lexing succeeds exactly when the input is a
concatenation of well-formed lexemes — the keywords
`sin`/`white`/`brown`/`pink`, the separator `|`, whitespace (space, tab,
line feed, form feed) and integer or decimal numeric literals — in which
every integer literal's value fits in `u64` (is `< 2^64`) and no numeric
literal is immediately followed by a digit (maximal munch would merge
them); lexing fails on every other input. -/
theorem claim_C3 (s : List Char) :
    (∃ ts, tokenize s = .ok ts) ↔ GoodDecomp s := by
  constructor
  · exact fun h => lexGo_goodDecomp s.length s h
  · rintro ⟨ls, hall, hsep, rfl⟩
    exact goodDecomp_lexes ls hall hsep _ le_rfl

end Tinnitus

